import Mathlib

/-!
Verification of the lexical path algebra of the `hydroperx path` crate.

Paths are modelled as `List Char` (the crate operates on UTF-8 strings; all
slicing done by the crate happens at ASCII match boundaries, so char-level
lists are a faithful shallow embedding).  Functions that can panic in the
source (the `relative` precondition assert, the `unwrap`s, and the byte
slice `r[1..]`) are embedded as `Option`-valued functions returning `none`
exactly where the source panics.
-/

/-- A path-separator character, the character class of the source's
`PATH_SEPARATOR` regex `[/\\]`. -/
def isSep (c : Char) : Bool := c = '/' || c = '\\'

/-- The source's `STARTS_WITH_PATH_SEPARATOR` regex `^[/\\]`. -/
def startsWithSep (s : List Char) : Bool :=
  match s with
  | [] => false
  | c :: _ => isSep c

/-- `Regex::split` with the `PATH_SEPARATOR` regex `[/\\]`: split the text at
every separator character, keeping empty pieces (so `""` yields `[""]` and
`"/"` yields `["", ""]`). -/
def splitOnSep : List Char → List (List Char)
  | [] => [[]]
  | c :: rest =>
    let r := splitOnSep rest
    if isSep c then [] :: r
    else (c :: r.headD []) :: r.tail

/-- `Vec::join("/")` on the accumulated segments. -/
def joinSegs : List (List Char) → List Char
  | [] => []
  | [s] => s
  | s :: t :: ss => s ++ '/' :: joinSegs (t :: ss)

/-- The segment `".."`. -/
def dotdot : List Char := ['.', '.']

/-- One iteration of the loop body of `resolve_one_without_starting_sep`:
skip `"."`, pop on `".."` (when non-empty), drop empty segments, push
everything else. -/
def rowssStep (r : List (List Char)) (p : List Char) : List (List Char) :=
  if p = ['.'] then r
  else if p = ['.', '.'] then r.dropLast
  else if p = [] then r
  else r ++ [p]

/-- The surviving segments of `resolve_one_without_starting_sep path`. -/
def segsOf (path : List Char) : List (List Char) :=
  (splitOnSep path).foldl rowssStep []

/-- Rust's `char::is_whitespace`, i.e. the Unicode `White_Space` property
(used by the `str::trim_start` call of `common::relative`): U+0009..U+000D,
U+0020, U+0085, U+00A0, U+1680, U+2000..U+200A, U+2028, U+2029, U+202F,
U+205F and U+3000. -/
def isRustWhitespace (c : Char) : Bool :=
  ('\u0009' ≤ c && c ≤ '\u000D') || c = ' ' || c = '\u0085' ||
  c = '\u00A0' || c = '\u1680' || ('\u2000' ≤ c && c ≤ '\u200A') ||
  c = '\u2028' || c = '\u2029' || c = '\u202F' || c = '\u205F' ||
  c = '\u3000'

namespace common

/-- `common::resolve_one_without_starting_sep`. -/
def resolve_one_without_starting_sep (path : List Char) : List Char :=
  joinSegs (segsOf path)

/-- `common::resolve_one`. -/
def resolve_one (path : List Char) : List Char :=
  if startsWithSep path then '/' :: resolve_one_without_starting_sep path
  else resolve_one_without_starting_sep path

/-- `common::resolve`. -/
def resolve (path1 path2 : List Char) : List Char :=
  if startsWithSep path2 then resolve_one path2
  else
    let r :=
      if path2 = [] then resolve_one_without_starting_sep path1
      else resolve_one_without_starting_sep
        (resolve_one_without_starting_sep path1 ++ '/' :: path2)
    if startsWithSep path1 then '/' :: r else r

/-- `common::resolve_n`. -/
def resolve_n : List (List Char) → List Char
  | [] => []
  | [p] => resolve_one p
  | p1 :: p2 :: rest => rest.foldl resolve (resolve p1 p2)

/-- The inner `remove_empty` helper of `common::relative`: it indexes
`parts[1]` (a panic — `none` — when fewer than two pieces exist) and removes
that entry when it is the empty string. -/
def remove_empty (parts : List (List Char)) : Option (List (List Char)) :=
  match parts with
  | a :: b :: rest => some (if b = [] then a :: rest else a :: b :: rest)
  | _ => none

/-- Length of the longest common prefix of two segment sequences, the number
of indices collected by the `common_indices` loop of `common::relative`. -/
def commonPrefixLen : List (List Char) → List (List Char) → Nat
  | a :: as, b :: bs => if a = b then commonPrefixLen as bs + 1 else 0
  | _, _ => 0

/-- `common::relative`.  `none` models the panic of the
`assert!(.. all absolute ..)` and of the `parts[1]` index.  The Rust loop
over `common_indices.iter().rev()` removes the first `commonPrefixLen`
entries of both vectors, embedded here as `List.drop`.  `str::trim_start`
removes leading characters with the Unicode `White_Space` property,
modelled by `isRustWhitespace`. -/
def relative (from_path to_path : List Char) : Option (List Char) :=
  if startsWithSep from_path && startsWithSep to_path then
    match remove_empty (splitOnSep (resolve_one from_path)),
          remove_empty (splitOnSep (resolve_one to_path)) with
    | some from_parts, some to_parts =>
      let k := commonPrefixLen from_parts to_parts
      let from_rest := from_parts.drop k
      let to_rest := to_parts.drop k
      let r := joinSegs (List.replicate from_rest.length dotdot ++ to_rest)
      let r := r.dropWhile (fun c => isRustWhitespace c)
      some (if r.getLast? = some '/' then r.dropLast else r)
    | _, _ => none
  else none

end common

/-- The `FlexPathVariant` enum of the crate. -/
inductive FlexPathVariant where
  | Common : FlexPathVariant
  | Windows : FlexPathVariant
deriving DecidableEq

/-- An ASCII letter, the character class `[A-Za-z]` of the Windows drive
patterns. -/
def isDriveLetter (c : Char) : Bool :=
  ('A' ≤ c && c ≤ 'Z') || ('a' ≤ c && c ≤ 'z')

/-- The anchored match of the source's `STARTS_WITH_WINDOWS_PATH_PREFIX`
regex, returning the matched text.  The Rust regex crate uses leftmost-first
alternation with greedy `?`, so the alternatives are tried in order:
extended-length `[\\/][\\/]\?\\([A-Za-z]:)?` (note the literal backslash
after `?`, and the optional drive is taken when present), then UNC
`[\\/][\\/]`, then drive `[A-Za-z]:`. -/
def winPreOf (s : List Char) : Option (List Char) :=
  match s with
  | a :: b :: rest =>
    if isSep a && isSep b then
      match rest with
      | '?' :: '\\' :: rest2 =>
        match rest2 with
        | d :: ':' :: _ =>
          if isDriveLetter d then some [a, b, '?', '\\', d, ':']
          else some [a, b, '?', '\\']
        | _ => some [a, b, '?', '\\']
      | _ => some [a, b]
    else if isDriveLetter a && b = ':' then some [a, b]
    else none
  | _ => none

/-- The anchored match of `STARTS_WITH_WINDOWS_PATH_PREFIX_OR_SLASH`,
returning the matched text.  Its extended-length alternative accepts either
separator after `?`, and the final alternative `[\/\\]([^/\\]|$)` matches a
separator together with the following non-separator character (or the
separator alone at the end of the text). -/
def winPreOrSlashOf (s : List Char) : Option (List Char) :=
  match s with
  | [] => none
  | [a] => if isSep a then some [a] else none
  | a :: b :: rest =>
    if isSep a && isSep b then
      match rest with
      | '?' :: c :: rest2 =>
        if isSep c then
          match rest2 with
          | d :: ':' :: _ =>
            if isDriveLetter d then some [a, b, '?', c, d, ':']
            else some [a, b, '?', c]
          | _ => some [a, b, '?', c]
        else some [a, b]
      | _ => some [a, b]
    else if isDriveLetter a && b = ':' then some [a, b]
    else if isSep a && !isSep b then some [a, b]
    else none

/-- The anchored whole-string test `UNC_OR_EXT_PREFIX`, i.e.
`^[\\/][\\/](?:\?[\\/])?$`: a bare UNC or extended-length marker with no
trailing content. -/
def uncOrExt (s : List Char) : Bool :=
  match s with
  | [a, b] => isSep a && isSep b
  | [a, b, '?', c] => isSep a && isSep b && isSep c
  | _ => false

/-- `STARTS_WITH_WINDOWS_PATH_PREFIX.replace(path, "/")`: replace the
(anchored) match, when there is one, by a single `/`. -/
def stripPreAddSlash (p : List Char) : List Char :=
  match winPreOf p with
  | some pre => '/' :: p.drop pre.length
  | none => p

namespace flexible

/-- The prefixed branch of `flexible::resolve` for the Windows variant:
`pre` is the prefix text found on the last prefixed input.  The byte slice
`&r[1..]` taken when the prefix is a bare UNC/extended marker panics
(`none`) when `r` is empty. -/
def resolveWithPre (path1 path2 pre : List Char) : Option (List Char) :=
  if uncOrExt pre then
    match common.resolve (stripPreAddSlash path1) (stripPreAddSlash path2) with
    | [] => none
    | _ :: t => some (pre ++ t)
  else
    some (pre ++
      common.resolve (stripPreAddSlash path1) (stripPreAddSlash path2))

/-- `flexible::resolve`.  For Windows, `prefixed` keeps the inputs matching
`STARTS_WITH_WINDOWS_PATH_PREFIX` in order, and `prefixed.last()` is
`path2` when it matches, else `path1`; when neither matches the function
delegates to `common::resolve`. -/
def resolve (path1 path2 : List Char) : FlexPathVariant → Option (List Char)
  | FlexPathVariant.Common => some (common.resolve path1 path2)
  | FlexPathVariant.Windows =>
    match winPreOf path2 with
    | some pre => resolveWithPre path1 path2 pre
    | none =>
      match winPreOf path1 with
      | some pre => resolveWithPre path1 path2 pre
      | none => some (common.resolve path1 path2)

/-- `flexible::resolve_n`. -/
def resolve_n (paths : List (List Char)) (v : FlexPathVariant) :
    Option (List Char) :=
  match paths with
  | [] => some []
  | [p] => resolve p [] v
  | p1 :: p2 :: rest =>
    (resolve p1 p2 v).bind fun init =>
      List.foldlM (fun a b => resolve a b v) init rest

/-- `flexible::resolve_one`, which the source defines as
`resolve_n([path])`. -/
def resolve_one (path : List Char) (v : FlexPathVariant) :
    Option (List Char) :=
  resolve_n [path] v

/-- `flexible::is_absolute`. -/
def is_absolute (path : List Char) : FlexPathVariant → Bool
  | FlexPathVariant.Common => startsWithSep path
  | FlexPathVariant.Windows => (winPreOrSlashOf path).isSome

/-- `flexible::relative`.  `none` models the panic of the absoluteness
assert (and of the `unwrap` on the prefix matches, unreachable under the
assert).  In the equal-prefix branch each path is sliced past the prefix
and given a synthetic leading `/` when the remainder does not already start
with a separator. -/
def relative (from_path to_path : List Char) (v : FlexPathVariant) :
    Option (List Char) :=
  match v with
  | FlexPathVariant.Common => common.relative from_path to_path
  | FlexPathVariant.Windows =>
    if is_absolute from_path FlexPathVariant.Windows &&
       is_absolute to_path FlexPathVariant.Windows then
      match winPreOrSlashOf from_path, winPreOrSlashOf to_path with
      | some pre0, some pre1 =>
        if pre0 ≠ pre1 then resolve_one to_path FlexPathVariant.Windows
        else
          let strip := fun (p : List Char) =>
            let s := p.drop pre0.length
            if startsWithSep s then s else '/' :: s
          common.relative (strip from_path) (strip to_path)
      | _, _ => none
    else none

end flexible

/-- The `FlexPath` structure: an owned text plus its variant. -/
structure FlexPath where
  text : List Char
  variant : FlexPathVariant
deriving DecidableEq

namespace FlexPath

/-- `FlexPath::new` (also `new_common` / `new_native` at a fixed variant):
resolves the given path at construction. -/
def new (path : List Char) (v : FlexPathVariant) : Option FlexPath :=
  (flexible.resolve_one path v).map fun t => ⟨t, v⟩

/-- `FlexPath::from_n` (also `from_n_common` / `from_n_native` at a fixed
variant). -/
def from_n (paths : List (List Char)) (v : FlexPathVariant) :
    Option FlexPath :=
  (flexible.resolve_n paths v).map fun t => ⟨t, v⟩

/-- The `FlexPath::resolve` method. -/
def resolveM (p : FlexPath) (path2 : List Char) : Option FlexPath :=
  (flexible.resolve p.text path2 p.variant).map fun t => ⟨t, p.variant⟩

/-- The `FlexPath::resolve_n` method:
`resolve(self, resolve_n(paths, v), v)`. -/
def resolve_nM (p : FlexPath) (paths : List (List Char)) : Option FlexPath :=
  (flexible.resolve_n paths p.variant).bind fun q =>
    (flexible.resolve p.text q p.variant).map fun t => ⟨t, p.variant⟩

/-- `ToString for FlexPath` with the Windows variant: every `/` is rendered
as `\`. -/
def windowsRender (s : List Char) : List Char :=
  s.map fun c => if c = '/' then '\\' else c

end FlexPath

/-! ### Basic facts about splitting and joining -/

/-- A surviving segment of the resolution loop: non-empty, not `.`, not
`..`, and free of separator characters. -/
def cleanSeg (s : List Char) : Prop :=
  s ≠ [] ∧ s ≠ ['.'] ∧ s ≠ ['.', '.'] ∧ ∀ c ∈ s, isSep c = false

lemma splitOnSep_ne_nil (s : List Char) : splitOnSep s ≠ [] := by
  cases s with
  | nil => simp [splitOnSep]
  | cons c rest => by_cases h : isSep c <;> simp [splitOnSep, h]

lemma splitOnSep_cons_sep (c : Char) (rest : List Char) (h : isSep c = true) :
    splitOnSep (c :: rest) = [] :: splitOnSep rest := by
  simp [splitOnSep, h]

lemma splitOnSep_cons_not (c : Char) (rest s : List Char)
    (ss : List (List Char)) (h : isSep c = false)
    (he : splitOnSep rest = s :: ss) :
    splitOnSep (c :: rest) = (c :: s) :: ss := by
  simp [splitOnSep, h, he]

lemma mem_splitOnSep (s : List Char) :
    ∀ seg ∈ splitOnSep s, ∀ c ∈ seg, c ∈ s ∧ isSep c = false := by
  induction s with
  | nil => intro seg hseg c hc; simp [splitOnSep] at hseg; simp [hseg] at hc
  | cons a t ih =>
    intro seg hseg c hc
    by_cases ha : isSep a
    · rw [splitOnSep_cons_sep a t ha] at hseg
      rcases List.mem_cons.mp hseg with h | h
      · simp [h] at hc
      · rcases ih seg h c hc with ⟨h1, h2⟩
        exact ⟨List.mem_cons_of_mem _ h1, h2⟩
    · obtain ⟨s0, ss, he⟩ : ∃ s0 ss, splitOnSep t = s0 :: ss := by
        cases hsp : splitOnSep t with
        | nil => exact absurd hsp (splitOnSep_ne_nil t)
        | cons x xs => exact ⟨x, xs, rfl⟩
      rw [splitOnSep_cons_not a t s0 ss (by simpa using ha) he] at hseg
      rcases List.mem_cons.mp hseg with h | h
      · subst h
        rcases List.mem_cons.mp hc with h | h
        · subst h; exact ⟨List.mem_cons_self _ _, by simpa using ha⟩
        · rcases ih s0 (by rw [he]; exact List.mem_cons_self _ _) c h with ⟨h1, h2⟩
          exact ⟨List.mem_cons_of_mem _ h1, h2⟩
      · rcases ih seg (by rw [he]; exact List.mem_cons_of_mem _ h) c hc with ⟨h1, h2⟩
        exact ⟨List.mem_cons_of_mem _ h1, h2⟩

lemma splitOnSep_append (a b : List Char) :
    splitOnSep (a ++ '/' :: b) = splitOnSep a ++ splitOnSep b := by
  induction a with
  | nil =>
    simp only [List.nil_append]
    rw [splitOnSep_cons_sep '/' b (by simp [isSep])]
    rfl
  | cons c t ih =>
    by_cases hc : isSep c
    · rw [List.cons_append, splitOnSep_cons_sep c _ hc,
        splitOnSep_cons_sep c t hc, ih, List.cons_append]
    · obtain ⟨s0, ss, he⟩ : ∃ s0 ss, splitOnSep t = s0 :: ss := by
        cases h : splitOnSep t with
        | nil => exact absurd h (splitOnSep_ne_nil t)
        | cons x xs => exact ⟨x, xs, rfl⟩
      have he2 : splitOnSep (t ++ '/' :: b) = s0 :: (ss ++ splitOnSep b) := by
        rw [ih, he]; rfl
      rw [List.cons_append, splitOnSep_cons_not c _ s0 _ (by simpa using hc) he2,
        splitOnSep_cons_not c t s0 ss (by simpa using hc) he, List.cons_append]

lemma splitOnSep_no_sep (s : List Char) (h : ∀ c ∈ s, isSep c = false) :
    splitOnSep s = [s] := by
  induction s with
  | nil => rfl
  | cons c t ih =>
    have ht : splitOnSep t = [t] := ih fun x hx => h x (List.mem_cons_of_mem _ hx)
    exact splitOnSep_cons_not c t t [] (h c (List.mem_cons_self _ _)) ht

lemma splitOnSep_joinSegs (L : List (List Char))
    (h : ∀ s ∈ L, ∀ c ∈ s, isSep c = false) (hne : L ≠ []) :
    splitOnSep (joinSegs L) = L := by
  induction L with
  | nil => exact absurd rfl hne
  | cons s t ih =>
    cases t with
    | nil => exact splitOnSep_no_sep s (h s (List.mem_cons_self _ _))
    | cons u us =>
      have : joinSegs (s :: u :: us) = s ++ '/' :: joinSegs (u :: us) := rfl
      rw [this, splitOnSep_append,
        splitOnSep_no_sep s (h s (List.mem_cons_self _ _)),
        ih (fun x hx => h x (List.mem_cons_of_mem _ hx)) (by simp)]
      rfl

/-! ### Facts about the resolution fold -/

lemma rowssStep_clean (acc : List (List Char)) (s : List Char)
    (h : cleanSeg s) : rowssStep acc s = acc ++ [s] := by
  rcases h with ⟨h1, h2, h3, _⟩
  simp [rowssStep, h1, h2, h3]

lemma foldl_rowssStep_clean (L : List (List Char)) (acc : List (List Char))
    (h : ∀ s ∈ L, cleanSeg s) : L.foldl rowssStep acc = acc ++ L := by
  induction L generalizing acc with
  | nil => simp
  | cons s t ih =>
    rw [List.foldl_cons, rowssStep_clean acc s (h s (List.mem_cons_self _ _)),
      ih _ fun x hx => h x (List.mem_cons_of_mem _ hx)]
    simp

lemma mem_foldl_rowssStep (L : List (List Char)) (acc : List (List Char))
    (s : List Char) (h : s ∈ L.foldl rowssStep acc) : s ∈ acc ∨ s ∈ L := by
  induction L generalizing acc with
  | nil => exact Or.inl h
  | cons x t ih =>
    rw [List.foldl_cons] at h
    rcases ih (rowssStep acc x) h with h' | h'
    · unfold rowssStep at h'
      split at h'
      · exact Or.inl h'
      · split at h'
        · exact Or.inl (List.dropLast_subset acc h')
        · split at h'
          · exact Or.inl h'
          · rcases List.mem_append.mp h' with h'' | h''
            · exact Or.inl h''
            · simp at h''; subst h''; exact Or.inr (List.mem_cons_self _ _)
    · exact Or.inr (List.mem_cons_of_mem _ h')

lemma cleanSeg_foldl :
    ∀ (L acc : List (List Char)),
      (∀ s ∈ L, ∀ c ∈ s, isSep c = false) →
      (∀ s ∈ acc, cleanSeg s) →
      ∀ s ∈ L.foldl rowssStep acc, cleanSeg s := by
  intro L
  induction L with
  | nil => intro acc _ hacc; exact hacc
  | cons x t ih =>
    intro acc hL hacc
    rw [List.foldl_cons]
    refine ih (rowssStep acc x) (fun s hs => hL s (List.mem_cons_of_mem _ hs)) ?_
    intro s hs
    unfold rowssStep at hs
    split at hs
    · exact hacc s hs
    · split at hs
      · exact hacc s (List.dropLast_subset acc hs)
      · split at hs
        · exact hacc s hs
        · rcases List.mem_append.mp hs with h | h
          · exact hacc s h
          · simp at h; subst h
            refine ⟨by assumption, by assumption, by assumption,
              hL s (List.mem_cons_self _ _)⟩

lemma segsOf_clean (p : List Char) : ∀ s ∈ segsOf p, cleanSeg s :=
  cleanSeg_foldl (splitOnSep p) []
    (fun s hs c hc => (mem_splitOnSep p s hs c hc).2) (by simp)

lemma segsOf_joinSegs_clean (L : List (List Char))
    (h : ∀ s ∈ L, cleanSeg s) : segsOf (joinSegs L) = L := by
  cases L with
  | nil => rfl
  | cons s t =>
    unfold segsOf
    rw [splitOnSep_joinSegs (s :: t) (fun x hx c hc => (h x hx).2.2.2 c hc)
      (by simp), foldl_rowssStep_clean _ [] h]
    rfl

lemma rowssStep_nil_nil : rowssStep [] [] = [] := by
  simp [rowssStep]

lemma segsOf_sep_cons (c : Char) (y : List Char) (h : isSep c = true) :
    segsOf (c :: y) = segsOf y := by
  unfold segsOf
  rw [splitOnSep_cons_sep c y h, List.foldl_cons, rowssStep_nil_nil]

lemma startsWithSep_joinSegs (L : List (List Char))
    (h : ∀ s ∈ L, cleanSeg s) : startsWithSep (joinSegs L) = false := by
  cases L with
  | nil => rfl
  | cons s t =>
    obtain ⟨c, cs, rfl⟩ : ∃ c cs, s = c :: cs := by
      cases s with
      | nil => exact absurd rfl (h [] (List.mem_cons_self _ _)).1
      | cons c cs => exact ⟨c, cs, rfl⟩
    have hc : isSep c = false :=
      (h _ (List.mem_cons_self _ _)).2.2.2 c (List.mem_cons_self _ _)
    cases t with
    | nil => simpa [joinSegs, startsWithSep] using hc
    | cons u us => simpa [joinSegs, startsWithSep] using hc

lemma segsOf_rowss (p : List Char) :
    segsOf (common.resolve_one_without_starting_sep p) = segsOf p :=
  segsOf_joinSegs_clean _ (segsOf_clean p)

lemma segsOf_resolve_one (p : List Char) :
    segsOf (common.resolve_one p) = segsOf p := by
  unfold common.resolve_one
  by_cases h : startsWithSep p
  · rw [if_pos h, segsOf_sep_cons '/' _ (by simp [isSep])]
    exact segsOf_rowss p
  · rw [if_neg h]
    exact segsOf_rowss p

lemma startsWithSep_resolve_one (p : List Char) :
    startsWithSep (common.resolve_one p) = startsWithSep p := by
  unfold common.resolve_one
  by_cases h : startsWithSep p
  · rw [if_pos h, h]; rfl
  · have h' : startsWithSep p = false := by simpa using h
    rw [if_neg h]
    unfold common.resolve_one_without_starting_sep
    rw [startsWithSep_joinSegs _ (segsOf_clean p), h']

lemma resolve_one_fix_clean (L : List (List Char))
    (h : ∀ s ∈ L, cleanSeg s) :
    common.resolve_one (joinSegs L) = joinSegs L ∧
    common.resolve_one ('/' :: joinSegs L) = '/' :: joinSegs L := by
  constructor
  · unfold common.resolve_one
    rw [if_neg (by rw [startsWithSep_joinSegs L h]; exact Bool.false_ne_true)]
    unfold common.resolve_one_without_starting_sep
    rw [segsOf_joinSegs_clean L h]
  · unfold common.resolve_one
    rw [if_pos (by rfl)]
    unfold common.resolve_one_without_starting_sep
    rw [segsOf_sep_cons '/' _ (by simp [isSep]), segsOf_joinSegs_clean L h]

lemma resolve_one_idem (p : List Char) :
    common.resolve_one (common.resolve_one p) = common.resolve_one p := by
  unfold common.resolve_one
  by_cases h : startsWithSep p
  · rw [if_pos h]
    exact (resolve_one_fix_clean (segsOf p) (segsOf_clean p)).2
  · rw [if_neg h]
    exact (resolve_one_fix_clean (segsOf p) (segsOf_clean p)).1

lemma segsOf_append_slash (a b : List Char) :
    segsOf (a ++ '/' :: b) = (splitOnSep b).foldl rowssStep (segsOf a) := by
  unfold segsOf
  rw [splitOnSep_append, List.foldl_append]

lemma rowss_rowss_append (p1 p2 : List Char) :
    common.resolve_one_without_starting_sep
      (common.resolve_one_without_starting_sep p1 ++ '/' :: p2) =
    common.resolve_one_without_starting_sep (p1 ++ '/' :: p2) := by
  unfold common.resolve_one_without_starting_sep
  rw [segsOf_append_slash, segsOf_append_slash,
    segsOf_joinSegs_clean _ (segsOf_clean p1)]

lemma resolve_eq_spec (p1 p2 : List Char) :
    common.resolve p1 p2 =
      if startsWithSep p2 then common.resolve_one p2
      else (if startsWithSep p1 then ['/'] else []) ++
        common.resolve_one_without_starting_sep (p1 ++ '/' :: p2) := by
  unfold common.resolve
  by_cases h2 : startsWithSep p2
  · rw [if_pos h2, if_pos h2]
  · rw [if_neg h2, if_neg h2]
    have hcore :
        (if p2 = [] then common.resolve_one_without_starting_sep p1
         else common.resolve_one_without_starting_sep
           (common.resolve_one_without_starting_sep p1 ++ '/' :: p2)) =
        common.resolve_one_without_starting_sep (p1 ++ '/' :: p2) := by
      by_cases hp2 : p2 = []
      · subst hp2
        rw [if_pos rfl]
        unfold common.resolve_one_without_starting_sep
        rw [segsOf_append_slash]
        show joinSegs (segsOf p1) = joinSegs ((splitOnSep []).foldl rowssStep (segsOf p1))
        have : (splitOnSep []).foldl rowssStep (segsOf p1) = segsOf p1 := by
          show rowssStep (segsOf p1) [] = segsOf p1
          simp [rowssStep]
        rw [this]
      · rw [if_neg hp2, rowss_rowss_append]
    rw [hcore]
    by_cases h1 : startsWithSep p1
    · rw [if_pos h1, if_pos h1]; rfl
    · rw [if_neg h1, if_neg h1]; rfl

/-! ### Structure of `common::relative` on absolute inputs -/

/-- The joined-and-trimmed text assembled by `common::relative` as a
function of the surviving segment sequences of the two (resolved) paths,
after the shared leading empty piece produced by splitting an absolute path
has been accounted for. -/
def relOutRaw (A B : List (List Char)) : List Char :=
  (joinSegs
    (List.replicate (A.drop (common.commonPrefixLen A B)).length dotdot ++
      B.drop (common.commonPrefixLen A B))).dropWhile
    (fun c => isRustWhitespace c)

/-- The text emitted by `common::relative` (the trimmed join with a single
trailing `/` removed). -/
def relOut (A B : List (List Char)) : List Char :=
  if (relOutRaw A B).getLast? = some '/' then (relOutRaw A B).dropLast
  else relOutRaw A B

lemma remove_empty_abs (p : List Char) (h : startsWithSep p = true) :
    common.remove_empty (splitOnSep (common.resolve_one p)) =
      some ([] :: segsOf p) := by
  have hro : common.resolve_one p = '/' :: joinSegs (segsOf p) := by
    unfold common.resolve_one common.resolve_one_without_starting_sep
    rw [if_pos h]
  rw [hro, splitOnSep_cons_sep '/' _ (by simp [isSep])]
  cases hs : segsOf p with
  | nil => simp [joinSegs, splitOnSep, common.remove_empty]
  | cons s ss =>
    have hclean := segsOf_clean p
    rw [hs] at hclean
    rw [splitOnSep_joinSegs (s :: ss)
      (fun x hx c hc => (hclean x hx).2.2.2 c hc) (by simp)]
    show some (if s = [] then [] :: ss else [] :: s :: ss) = some ([] :: s :: ss)
    rw [if_neg (hclean s (List.mem_cons_self _ _)).1]

lemma cpl_cons_eq (x : List Char) (A B : List (List Char)) :
    common.commonPrefixLen (x :: A) (x :: B) =
      common.commonPrefixLen A B + 1 := by
  simp [common.commonPrefixLen]

lemma relative_abs (p q : List Char) (hp : startsWithSep p = true)
    (hq : startsWithSep q = true) :
    common.relative p q = some (relOut (segsOf p) (segsOf q)) := by
  unfold common.relative
  rw [hp, hq]
  simp only [Bool.and_self, if_true]
  rw [remove_empty_abs p hp, remove_empty_abs q hq]
  simp only [relOut, relOutRaw, cpl_cons_eq, List.drop_succ_cons]

lemma cpl_self (A : List (List Char)) :
    common.commonPrefixLen A A = A.length := by
  induction A with
  | nil => rfl
  | cons x t ih => simp [common.commonPrefixLen, ih]

lemma cpl_le_left (A B : List (List Char)) :
    common.commonPrefixLen A B ≤ A.length := by
  induction A generalizing B with
  | nil => simp [common.commonPrefixLen]
  | cons x t ih =>
    cases B with
    | nil => simp [common.commonPrefixLen]
    | cons y u =>
      unfold common.commonPrefixLen
      by_cases h : x = y
      · rw [if_pos h]
        simpa using ih u
      · rw [if_neg h]
        simp

lemma cpl_le_right (A B : List (List Char)) :
    common.commonPrefixLen A B ≤ B.length := by
  induction A generalizing B with
  | nil => simp [common.commonPrefixLen]
  | cons x t ih =>
    cases B with
    | nil => simp [common.commonPrefixLen]
    | cons y u =>
      unfold common.commonPrefixLen
      by_cases h : x = y
      · rw [if_pos h]
        simpa using ih u
      · rw [if_neg h]
        simp

lemma take_cpl_eq (A B : List (List Char)) :
    A.take (common.commonPrefixLen A B) =
      B.take (common.commonPrefixLen A B) := by
  induction A generalizing B with
  | nil => simp [common.commonPrefixLen]
  | cons x t ih =>
    cases B with
    | nil => simp [common.commonPrefixLen]
    | cons y u =>
      unfold common.commonPrefixLen
      by_cases h : x = y
      · rw [if_pos h]
        simp [h, ih u]
      · rw [if_neg h]
        simp

lemma relOut_self (A : List (List Char)) : relOut A A = [] := by
  have hraw : relOutRaw A A = [] := by
    unfold relOutRaw
    rw [cpl_self, List.drop_length]
    simp [joinSegs]
  unfold relOut
  rw [hraw]
  simp

lemma getLast?_append_cons (l1 : List Char) (a : Char) (l2 : List Char)
    (h : l2 ≠ []) : (l1 ++ a :: l2).getLast? = l2.getLast? := by
  rcases List.eq_nil_or_concat l2 with h' | ⟨m, b, rfl⟩
  · exact absurd h' h
  · simp only [List.concat_eq_append]
    rw [show l1 ++ a :: (m ++ [b]) = (l1 ++ a :: m) ++ [b] by simp,
      List.getLast?_concat, List.getLast?_concat]

lemma joinSegs_ne_nil (s : List Char) (t : List (List Char)) (h : s ≠ []) :
    joinSegs (s :: t) ≠ [] := by
  cases t with
  | nil => exact h
  | cons u us =>
    show s ++ '/' :: joinSegs (u :: us) ≠ []
    simp

lemma joinSegs_getLast_no_sep (L : List (List Char))
    (h : ∀ s ∈ L, s ≠ [] ∧ ∀ c ∈ s, isSep c = false) :
    ∀ c, (joinSegs L).getLast? = some c → isSep c = false := by
  induction L with
  | nil => intro c hc; simp [joinSegs] at hc
  | cons s t ih =>
    intro c hc
    cases t with
    | nil =>
      exact (h s (List.mem_cons_self _ _)).2 c (List.mem_of_getLast?_eq_some hc)
    | cons u us =>
      have hne : joinSegs (u :: us) ≠ [] :=
        joinSegs_ne_nil u us (h u (by simp)).1
      rw [show joinSegs (s :: u :: us) = s ++ '/' :: joinSegs (u :: us)
          from rfl,
        getLast?_append_cons _ _ _ hne] at hc
      exact ih (fun x hx => h x (List.mem_cons_of_mem _ hx)) c hc

lemma getLast?_suffix_ne (r1 r2 : List Char) (h : r2 <:+ r1)
    (hne : r2 ≠ []) : r1.getLast? = r2.getLast? := by
  obtain ⟨t, rfl⟩ := h
  rcases List.eq_nil_or_concat r2 with h' | ⟨m, b, rfl⟩
  · exact absurd h' hne
  · simp only [List.concat_eq_append]
    rw [show t ++ (m ++ [b]) = (t ++ m) ++ [b] by simp,
      List.getLast?_concat, List.getLast?_concat]

lemma relOut_elems (A B : List (List Char)) (hB : ∀ s ∈ B, cleanSeg s) :
    ∀ s ∈ List.replicate
        (A.drop (common.commonPrefixLen A B)).length dotdot ++
        B.drop (common.commonPrefixLen A B),
      s ≠ [] ∧ ∀ c ∈ s, isSep c = false := by
  intro s hs
  rcases List.mem_append.mp hs with h | h
  · rw [List.eq_of_mem_replicate h]
    refine ⟨by simp [dotdot], ?_⟩
    intro c hc
    rcases List.mem_cons.mp hc with h' | h'
    · subst h'; rfl
    · rcases List.mem_cons.mp h' with h'' | h''
      · subst h''; rfl
      · simp at h''
  · have := hB s (List.drop_subset _ _ h)
    exact ⟨this.1, this.2.2.2⟩

lemma relOutRaw_getLast_no_sep (A B : List (List Char))
    (hB : ∀ s ∈ B, cleanSeg s) :
    ∀ c, (relOutRaw A B).getLast? = some c → isSep c = false := by
  intro c hc
  by_cases hnil : relOutRaw A B = []
  · rw [hnil] at hc
    simp at hc
  · have hlast :
        (joinSegs
          (List.replicate (A.drop (common.commonPrefixLen A B)).length
              dotdot ++
            B.drop (common.commonPrefixLen A B))).getLast? =
          (relOutRaw A B).getLast? :=
      getLast?_suffix_ne _ _ (List.dropWhile_suffix _) hnil
    exact joinSegs_getLast_no_sep _ (relOut_elems A B hB) c (hlast.trans hc)

lemma relOut_getLast_no_sep (A B : List (List Char))
    (hB : ∀ s ∈ B, cleanSeg s) :
    ∀ c, (relOut A B).getLast? = some c → isSep c = false := by
  intro c hc
  unfold relOut at hc
  have hcond : ¬((relOutRaw A B).getLast? = some '/') := by
    intro hdd
    have := relOutRaw_getLast_no_sep A B hB '/' hdd
    simp [isSep] at this
  rw [if_neg hcond] at hc
  exact relOutRaw_getLast_no_sep A B hB c hc

lemma relOut_eq_raw (A B : List (List Char)) (hB : ∀ s ∈ B, cleanSeg s) :
    relOut A B = relOutRaw A B := by
  unfold relOut
  rw [if_neg]
  intro hdd
  have := relOutRaw_getLast_no_sep A B hB '/' hdd
  simp [isSep] at this

lemma foldl_replicate_dotdot (n : Nat) (acc : List (List Char)) :
    (List.replicate n dotdot).foldl rowssStep acc =
      acc.take (acc.length - n) := by
  induction n generalizing acc with
  | zero => simp
  | succ m ih =>
    rw [List.replicate_succ, List.foldl_cons]
    have hstep : rowssStep acc dotdot = acc.dropLast := by
      show (if (['.', '.'] : List Char) = ['.'] then acc
        else if (['.', '.'] : List Char) = ['.', '.'] then acc.dropLast
        else if (['.', '.'] : List Char) = [] then acc
        else acc ++ [['.', '.']]) = acc.dropLast
      rw [if_neg (by decide), if_pos rfl]
    rw [hstep, ih]
    rw [List.length_dropLast, List.dropLast_eq_take, List.take_take]
    congr 1
    omega

lemma startsWithSep_joinSegs_ne (L : List (List Char))
    (h : ∀ s ∈ L, s ≠ [] ∧ ∀ c ∈ s, isSep c = false) :
    startsWithSep (joinSegs L) = false := by
  cases L with
  | nil => rfl
  | cons s t =>
    obtain ⟨c, cs, rfl⟩ : ∃ c cs, s = c :: cs := by
      cases s with
      | nil => exact absurd rfl (h [] (List.mem_cons_self _ _)).1
      | cons c cs => exact ⟨c, cs, rfl⟩
    have hc : isSep c = false :=
      (h _ (List.mem_cons_self _ _)).2 c (List.mem_cons_self _ _)
    cases t with
    | nil => simpa [joinSegs, startsWithSep] using hc
    | cons u us => simpa [joinSegs, startsWithSep] using hc

lemma dropWhile_ws_joinSegs (L : List (List Char))
    (h : ∀ s ∈ L, s ≠ [] ∧ ∀ c ∈ s, isRustWhitespace c = false) :
    (joinSegs L).dropWhile (fun c => isRustWhitespace c) = joinSegs L := by
  cases L with
  | nil => rfl
  | cons s t =>
    obtain ⟨c, cs, rfl⟩ : ∃ c cs, s = c :: cs := by
      cases s with
      | nil => exact absurd rfl (h [] (List.mem_cons_self _ _)).1
      | cons c cs => exact ⟨c, cs, rfl⟩
    obtain ⟨X, hX⟩ : ∃ X, joinSegs ((c :: cs) :: t) = c :: X := by
      cases t with
      | nil => exact ⟨cs, rfl⟩
      | cons u us => exact ⟨cs ++ '/' :: joinSegs (u :: us), rfl⟩
    rw [hX, List.dropWhile_cons]
    have hc : isRustWhitespace c = false :=
      (h _ (List.mem_cons_self _ _)).2 c (List.mem_cons_self _ _)
    simp [hc]

lemma relOut_elems_ws (A B : List (List Char))
    (hB : ∀ s ∈ B, cleanSeg s)
    (hws : ∀ s ∈ B, ∀ c ∈ s, isRustWhitespace c = false) :
    ∀ s ∈ List.replicate
        (A.drop (common.commonPrefixLen A B)).length dotdot ++
        B.drop (common.commonPrefixLen A B),
      s ≠ [] ∧ ∀ c ∈ s, isRustWhitespace c = false := by
  intro s hs
  rcases List.mem_append.mp hs with h | h
  · rw [List.eq_of_mem_replicate h]
    refine ⟨by simp [dotdot], ?_⟩
    intro c hc
    rcases List.mem_cons.mp hc with h' | h'
    · subst h'; rfl
    · rcases List.mem_cons.mp h' with h'' | h''
      · subst h''; rfl
      · simp at h''
  · exact ⟨(hB s (List.drop_subset _ _ h)).1,
      fun c hc => hws s (List.drop_subset _ _ h) c hc⟩

lemma relOut_eq_join (A B : List (List Char))
    (hB : ∀ s ∈ B, cleanSeg s)
    (hws : ∀ s ∈ B, ∀ c ∈ s, isRustWhitespace c = false) :
    relOut A B = joinSegs
      (List.replicate (A.drop (common.commonPrefixLen A B)).length dotdot ++
        B.drop (common.commonPrefixLen A B)) := by
  rw [relOut_eq_raw A B hB]
  unfold relOutRaw
  exact dropWhile_ws_joinSegs _ (relOut_elems_ws A B hB hws)

lemma startsWithSep_relOut (A B : List (List Char))
    (hB : ∀ s ∈ B, cleanSeg s)
    (hws : ∀ s ∈ B, ∀ c ∈ s, isRustWhitespace c = false) :
    startsWithSep (relOut A B) = false := by
  rw [relOut_eq_join A B hB hws]
  exact startsWithSep_joinSegs_ne _ (relOut_elems A B hB)

lemma segsOf_chars (q : List Char) :
    ∀ s ∈ segsOf q, ∀ c ∈ s, c ∈ q := by
  intro s hs c hc
  rcases mem_foldl_rowssStep _ _ _ hs with h | h
  · simp at h
  · exact (mem_splitOnSep q s h c hc).1

lemma resolve_one_abs (q : List Char) (hq : startsWithSep q = true) :
    common.resolve_one q = '/' :: joinSegs (segsOf q) := by
  unfold common.resolve_one common.resolve_one_without_starting_sep
  rw [if_pos hq]

lemma resolve_relOut_roundtrip (p q : List Char)
    (hp : startsWithSep p = true) (hq : startsWithSep q = true)
    (hws : ∀ c ∈ q, isRustWhitespace c = false) :
    common.resolve p (relOut (segsOf p) (segsOf q)) =
      common.resolve_one q := by
  have hB : ∀ s ∈ segsOf q, cleanSeg s := segsOf_clean q
  have hwsB : ∀ s ∈ segsOf q, ∀ c ∈ s, isRustWhitespace c = false :=
    fun s hs c hc => hws c (segsOf_chars q s hs c hc)
  have hjoin := relOut_eq_join (segsOf p) (segsOf q) hB hwsB
  set A := segsOf p with hA
  set B := segsOf q with hBdef
  set k := common.commonPrefixLen A B with hk
  set L := List.replicate (A.drop k).length dotdot ++ B.drop k with hLdef
  cases hL : L with
  | nil =>
    have hAB : A = B := by
      rcases List.append_eq_nil.mp (hLdef ▸ hL) with ⟨h1, h2⟩
      have hdropA : A.drop k = [] :=
        List.length_eq_zero.mp (List.replicate_eq_nil_iff dotdot |>.mp h1)
      calc A = A.take k ++ A.drop k := (List.take_append_drop k A).symm
        _ = A.take k := by rw [hdropA, List.append_nil]
        _ = B.take k := take_cpl_eq A B
        _ = B.take k ++ B.drop k := by rw [h2, List.append_nil]
        _ = B := List.take_append_drop k B
    have hrel : relOut A B = [] := by rw [hjoin, hL]; rfl
    rw [hrel]
    rw [resolve_eq_spec, if_neg (by simp [startsWithSep]), if_pos hp,
      resolve_one_abs q hq]
    unfold common.resolve_one_without_starting_sep
    rw [segsOf_append_slash]
    show '/' :: joinSegs (rowssStep (segsOf p) []) = '/' :: joinSegs (segsOf q)
    rw [show rowssStep (segsOf p) [] = segsOf p by simp [rowssStep]]
    rw [← hA, ← hBdef, hAB]
  | cons s t =>
    have hrel : relOut A B = joinSegs L := hjoin
    have hsws : startsWithSep (relOut A B) = false :=
      startsWithSep_relOut A B hB hwsB
    rw [hrel] at hsws
    rw [hrel, resolve_eq_spec, if_neg (by rw [hsws]; exact Bool.false_ne_true),
      if_pos hp, resolve_one_abs q hq]
    unfold common.resolve_one_without_starting_sep
    rw [segsOf_append_slash]
    have hsplit : splitOnSep (joinSegs L) = L := by
      refine splitOnSep_joinSegs L ?_ (by rw [hL]; simp)
      intro x hx c hc
      have hclean := relOut_elems A B hB x (hLdef ▸ hx)
      exact hclean.2 c hc
    rw [hsplit, hLdef, List.foldl_append, foldl_replicate_dotdot]
    have hlen : A.length - (A.drop k).length = k := by
      rw [List.length_drop]
      have := cpl_le_left A B
      omega
    rw [hlen, foldl_rowssStep_clean _ _
      (fun x hx => hB x (List.drop_subset _ _ hx)),
      take_cpl_eq A B, List.take_append_drop]
    rfl

/-! ### Totality and shape of the Windows layer -/

lemma resolve_abs_cons (a b : List Char)
    (h : startsWithSep a = true ∨ startsWithSep b = true) :
    ∃ t, common.resolve a b = '/' :: t := by
  by_cases hb : startsWithSep b
  · exact ⟨_, by rw [resolve_eq_spec, if_pos hb, resolve_one_abs b hb]⟩
  · have ha : startsWithSep a = true := by
      rcases h with h | h
      · exact h
      · exact absurd h hb
    exact ⟨_, by rw [resolve_eq_spec, if_neg hb, if_pos ha]; rfl⟩

lemma stripPre_sws (p pre : List Char) (h : winPreOf p = some pre) :
    startsWithSep (stripPreAddSlash p) = true := by
  unfold stripPreAddSlash
  rw [h]
  rfl

lemma resolveWithPre_some (p1 p2 pre : List Char)
    (h : startsWithSep (stripPreAddSlash p1) = true ∨
      startsWithSep (stripPreAddSlash p2) = true) :
    flexible.resolveWithPre p1 p2 pre =
      some (if uncOrExt pre
        then pre ++
          (common.resolve (stripPreAddSlash p1) (stripPreAddSlash p2)).drop 1
        else pre ++
          common.resolve (stripPreAddSlash p1) (stripPreAddSlash p2)) := by
  obtain ⟨t, ht⟩ := resolve_abs_cons _ _ h
  unfold flexible.resolveWithPre
  by_cases hu : uncOrExt pre
  · rw [if_pos hu, if_pos hu, ht]
    rfl
  · rw [if_neg hu, if_neg hu]

lemma fresolve_some (p1 p2 : List Char) (v : FlexPathVariant) :
    ∃ t, flexible.resolve p1 p2 v = some t := by
  cases v with
  | Common => exact ⟨_, rfl⟩
  | Windows =>
    show ∃ t,
      (match winPreOf p2 with
        | some pre => flexible.resolveWithPre p1 p2 pre
        | none =>
          match winPreOf p1 with
          | some pre => flexible.resolveWithPre p1 p2 pre
          | none => some (common.resolve p1 p2)) = some t
    cases h2 : winPreOf p2 with
    | some pre =>
      exact ⟨_, resolveWithPre_some p1 p2 pre (Or.inr (stripPre_sws p2 pre h2))⟩
    | none =>
      cases h1 : winPreOf p1 with
      | some pre =>
        exact ⟨_,
          resolveWithPre_some p1 p2 pre (Or.inl (stripPre_sws p1 pre h1))⟩
      | none => exact ⟨_, rfl⟩

lemma foldlM_fresolve_some (v : FlexPathVariant) (l : List (List Char)) :
    ∀ init : List Char,
      ∃ t, List.foldlM (fun a b => flexible.resolve a b v) init l = some t := by
  induction l with
  | nil => intro init; exact ⟨init, rfl⟩
  | cons b t ih =>
    intro init
    obtain ⟨u, hu⟩ := fresolve_some init b v
    obtain ⟨w, hw⟩ := ih u
    refine ⟨w, ?_⟩
    rw [List.foldlM_cons, hu]
    exact hw

lemma fresolve_n_some (ps : List (List Char)) (v : FlexPathVariant) :
    ∃ t, flexible.resolve_n ps v = some t := by
  cases ps with
  | nil => exact ⟨[], rfl⟩
  | cons p1 rest =>
    cases rest with
    | nil => exact fresolve_some p1 [] v
    | cons p2 rest2 =>
      obtain ⟨u, hu⟩ := fresolve_some p1 p2 v
      obtain ⟨w, hw⟩ := foldlM_fresolve_some v rest2 u
      refine ⟨w, ?_⟩
      show (flexible.resolve p1 p2 v).bind _ = some w
      rw [hu]
      exact hw

lemma fresolve_one_some (p : List Char) (v : FlexPathVariant) :
    ∃ t, flexible.resolve_one p v = some t :=
  fresolve_n_some [p] v

lemma crelative_none_iff (p q : List Char) :
    common.relative p q = none ↔
      ¬(startsWithSep p = true ∧ startsWithSep q = true) := by
  constructor
  · intro hnone hboth
    rw [relative_abs p q hboth.1 hboth.2] at hnone
    exact Option.noConfusion hnone
  · intro h
    unfold common.relative
    rw [if_neg]
    intro hcond
    exact h (Bool.and_eq_true _ _ |>.mp hcond)

lemma sws_strip (s : List Char) :
    startsWithSep (if startsWithSep s then s else '/' :: s) = true := by
  by_cases h : startsWithSep s
  · rw [if_pos h]; exact h
  · rw [if_neg h]; rfl

lemma frelativeW_cases (p q pre0 pre1 : List Char)
    (hp0 : winPreOrSlashOf p = some pre0)
    (hp1 : winPreOrSlashOf q = some pre1) :
    flexible.relative p q FlexPathVariant.Windows =
      if pre0 ≠ pre1 then flexible.resolve_one q FlexPathVariant.Windows
      else common.relative
        (if startsWithSep (p.drop pre0.length) then p.drop pre0.length
          else '/' :: p.drop pre0.length)
        (if startsWithSep (q.drop pre0.length) then q.drop pre0.length
          else '/' :: q.drop pre0.length) := by
  simp only [flexible.relative, flexible.is_absolute, hp0, hp1,
    Option.isSome_some, Bool.and_self, if_true]

lemma frelativeW_not_abs (p q : List Char)
    (h : ¬((winPreOrSlashOf p).isSome = true ∧
      (winPreOrSlashOf q).isSome = true)) :
    flexible.relative p q FlexPathVariant.Windows = none := by
  simp only [flexible.relative, flexible.is_absolute]
  rw [if_neg]
  intro hcond
  exact h (Bool.and_eq_true _ _ |>.mp hcond)

lemma frelative_none_iff (p q : List Char) (v : FlexPathVariant) :
    flexible.relative p q v = none ↔
      ¬(flexible.is_absolute p v = true ∧ flexible.is_absolute q v = true) := by
  cases v with
  | Common =>
    show common.relative p q = none ↔ _
    rw [crelative_none_iff]
    rfl
  | Windows =>
    by_cases hab : flexible.is_absolute p FlexPathVariant.Windows = true ∧
        flexible.is_absolute q FlexPathVariant.Windows = true
    · obtain ⟨pre0, hp0⟩ := Option.isSome_iff_exists.mp hab.1
      obtain ⟨pre1, hp1⟩ := Option.isSome_iff_exists.mp hab.2
      rw [frelativeW_cases p q pre0 pre1 hp0 hp1]
      constructor
      · intro hnone
        by_cases hne : pre0 ≠ pre1
        · rw [if_pos hne] at hnone
          obtain ⟨t, ht⟩ := fresolve_one_some q FlexPathVariant.Windows
          rw [ht] at hnone
          exact Option.noConfusion hnone
        · rw [if_neg hne] at hnone
          have hrel := relative_abs _ _
            (sws_strip (p.drop pre0.length)) (sws_strip (q.drop pre0.length))
          have hrel2 : common.relative
              (if startsWithSep (p.drop pre0.length) then p.drop pre0.length
                else '/' :: p.drop pre0.length)
              (if startsWithSep (q.drop pre0.length) then q.drop pre0.length
                else '/' :: q.drop pre0.length) ≠ none := by
            rw [hrel]
            exact Option.noConfusion
          exact absurd hnone hrel2
      · intro h
        exact absurd hab h
    · rw [frelativeW_not_abs p q hab]
      constructor
      · intro _; exact hab
      · intro _; rfl

/-! ### Fixed points of resolution in the Common dialect -/

lemma resolve_nil_right (t : List Char) :
    common.resolve t [] = common.resolve_one t := by
  unfold common.resolve common.resolve_one
  rw [if_neg (by simp [startsWithSep]), if_pos rfl]

lemma resolve_output_fix (a b : List Char) :
    common.resolve_one (common.resolve a b) = common.resolve a b := by
  rw [resolve_eq_spec]
  by_cases hb : startsWithSep b
  · rw [if_pos hb]
    exact resolve_one_idem b
  · rw [if_neg hb]
    by_cases ha : startsWithSep a
    · rw [if_pos ha]
      simp only [List.singleton_append]
      unfold common.resolve_one_without_starting_sep
      exact (resolve_one_fix_clean (segsOf (a ++ '/' :: b))
        (segsOf_clean _)).2
    · rw [if_neg ha]
      simp only [List.nil_append]
      unfold common.resolve_one_without_starting_sep
      exact (resolve_one_fix_clean (segsOf (a ++ '/' :: b))
        (segsOf_clean _)).1

lemma fresolve_common (a b : List Char) :
    flexible.resolve a b FlexPathVariant.Common =
      some (common.resolve a b) := rfl

lemma foldlM_resolve_common (l : List (List Char)) :
    ∀ init : List Char,
      List.foldlM (fun a b => flexible.resolve a b FlexPathVariant.Common)
          init l =
        some (l.foldl common.resolve init) := by
  induction l with
  | nil => intro init; rfl
  | cons b t ih =>
    intro init
    rw [List.foldlM_cons, fresolve_common]
    show List.foldlM _ (common.resolve init b) t = _
    rw [ih, List.foldl_cons]

lemma fresolve_n_common (ps : List (List Char)) :
    flexible.resolve_n ps FlexPathVariant.Common =
      some (common.resolve_n ps) := by
  cases ps with
  | nil => rfl
  | cons p1 rest =>
    cases rest with
    | nil =>
      show flexible.resolve p1 [] FlexPathVariant.Common = _
      rw [fresolve_common, resolve_nil_right]
      rfl
    | cons p2 rest2 =>
      have h1 : flexible.resolve_n (p1 :: p2 :: rest2) FlexPathVariant.Common =
          (flexible.resolve p1 p2 FlexPathVariant.Common).bind
            (fun init => List.foldlM
              (fun a b => flexible.resolve a b FlexPathVariant.Common)
              init rest2) := rfl
      rw [h1, fresolve_common]
      show List.foldlM
          (fun a b => flexible.resolve a b FlexPathVariant.Common)
          (common.resolve p1 p2) rest2 = _
      rw [foldlM_resolve_common]
      rfl

lemma fresolve_one_common (p : List Char) :
    flexible.resolve_one p FlexPathVariant.Common =
      some (common.resolve_one p) := by
  show flexible.resolve_n [p] FlexPathVariant.Common = _
  rw [fresolve_n_common]
  rfl

lemma resolve_one_nil : common.resolve_one [] = [] := by decide

lemma foldl_resolve_fix (rest : List (List Char)) :
    ∀ init : List Char, common.resolve_one init = init →
      common.resolve_one (rest.foldl common.resolve init) =
        rest.foldl common.resolve init := by
  induction rest with
  | nil => intro init h; exact h
  | cons b t ih =>
    intro init _
    rw [List.foldl_cons]
    exact ih (common.resolve init b) (resolve_output_fix init b)

lemma resolve_n_fix (ps : List (List Char)) :
    common.resolve_one (common.resolve_n ps) = common.resolve_n ps := by
  cases ps with
  | nil => exact resolve_one_nil
  | cons p1 rest =>
    cases rest with
    | nil => exact resolve_one_idem p1
    | cons p2 rest2 =>
      exact foldl_resolve_fix rest2 (common.resolve p1 p2)
        (resolve_output_fix p1 p2)

/-! ### The specification's wording of `resolve_one` -/

/-- Segment processing exactly as §4.1 of the specification words it: walk
the split segments keeping an accumulator (held in reverse), skipping `.`,
popping the last accumulated segment on `..` (a no-op when none exist, so a
leading `..` is dropped), and dropping empty segments. -/
def resolveSegmentsSpec : List (List Char) → List (List Char) → List (List Char)
  | acc, [] => acc.reverse
  | acc, s :: rest =>
    if s = ['.'] then resolveSegmentsSpec acc rest
    else if s = ['.', '.'] then resolveSegmentsSpec acc.tail rest
    else if s = [] then resolveSegmentsSpec acc rest
    else resolveSegmentsSpec (s :: acc) rest

/-- `resolve_one` as the specification words it: split on any separator,
process the segments, join the survivors with `/`, and reattach a single
leading `/` iff the input started with a separator. -/
def resolve_one_spec (p : List Char) : List Char :=
  (if startsWithSep p then ['/'] else []) ++
    joinSegs (resolveSegmentsSpec [] (splitOnSep p))

lemma reverse_tail_eq_dropLast_reverse (l : List (List Char)) :
    l.reverse.tail = l.dropLast.reverse := by
  rcases List.eq_nil_or_concat l with rfl | ⟨m, b, rfl⟩
  · rfl
  · simp [List.concat_eq_append]

lemma foldl_eq_resolveSegmentsSpec (l : List (List Char)) :
    ∀ acc : List (List Char),
      l.foldl rowssStep acc = resolveSegmentsSpec acc.reverse l := by
  induction l with
  | nil => intro acc; simp [resolveSegmentsSpec]
  | cons s rest ih =>
    intro acc
    rw [List.foldl_cons]
    unfold rowssStep
    by_cases h1 : s = ['.']
    · rw [if_pos h1]
      show _ = resolveSegmentsSpec acc.reverse (s :: rest)
      unfold resolveSegmentsSpec
      rw [if_pos h1]
      exact ih acc
    · rw [if_neg h1]
      by_cases h2 : s = ['.', '.']
      · rw [if_pos h2]
        show _ = resolveSegmentsSpec acc.reverse (s :: rest)
        unfold resolveSegmentsSpec
        rw [if_neg h1, if_pos h2, reverse_tail_eq_dropLast_reverse]
        exact ih acc.dropLast
      · rw [if_neg h2]
        by_cases h3 : s = []
        · rw [if_pos h3]
          show _ = resolveSegmentsSpec acc.reverse (s :: rest)
          unfold resolveSegmentsSpec
          rw [if_neg h1, if_neg h2, if_pos h3]
          exact ih acc
        · rw [if_neg h3]
          show _ = resolveSegmentsSpec acc.reverse (s :: rest)
          unfold resolveSegmentsSpec
          rw [if_neg h1, if_neg h2, if_neg h3]
          rw [show s :: acc.reverse = (acc ++ [s]).reverse by simp]
          exact ih (acc ++ [s])

lemma resolve_one_eq_spec (p : List Char) :
    common.resolve_one p = resolve_one_spec p := by
  unfold common.resolve_one resolve_one_spec
    common.resolve_one_without_starting_sep segsOf
  rw [foldl_eq_resolveSegmentsSpec]
  by_cases h : startsWithSep p
  · rw [if_pos h, if_pos h]
    rfl
  · rw [if_neg h, if_neg h]
    rfl

lemma fresolveW_eq_withPre2 (p1 p2 pre : List Char)
    (h : winPreOf p2 = some pre) :
    flexible.resolve p1 p2 FlexPathVariant.Windows =
      flexible.resolveWithPre p1 p2 pre := by
  simp only [flexible.resolve, h]

lemma fresolveW_eq_withPre1 (p1 p2 pre : List Char)
    (h2 : winPreOf p2 = none) (h1 : winPreOf p1 = some pre) :
    flexible.resolve p1 p2 FlexPathVariant.Windows =
      flexible.resolveWithPre p1 p2 pre := by
  simp only [flexible.resolve, h2, h1]

/-! ### The claims -/

/-- C3: The Lexical Resolver's `resolve_one(path)` splits the path on any
separator, skips `.` segments, pops the last accumulated segment on `..`
(silently dropping a leading `..` of a relative path), drops empty
segments, joins the survivors with `/`, and reattaches a single leading `/`
iff the input started with a separator; in particular
`resolve_one("a//b/") == "a/b"` and `resolve_one("a/b/..") == "a"`. -/
theorem claim3_resolve_one_spec :
    (∀ p : List Char, common.resolve_one p = resolve_one_spec p) ∧
    common.resolve_one ("a//b/".toList) = "a/b".toList ∧
    common.resolve_one ("a/b/..".toList) = "a".toList ∧
    common.resolve_one ("../a".toList) = "a".toList :=
  ⟨resolve_one_eq_spec, by decide, by decide, by decide⟩

/-- C5: For the Lexical Resolver's `resolve(path1, path2)`: when `path2` is
absolute the result is `resolve_one(path2)` regardless of `path1`;
otherwise it is the (prefix-separator-free) resolution of `path1` joined
with `path2` by a separator, with a leading `/` iff `path1` was
absolute. -/
theorem claim5_resolve_spec : ∀ p1 p2 : List Char,
    common.resolve p1 p2 =
      if startsWithSep p2 then common.resolve_one p2
      else (if startsWithSep p1 then ['/'] else []) ++
        common.resolve_one_without_starting_sep (p1 ++ '/' :: p2) :=
  resolve_eq_spec

/-- C4 counterexample: the Dialect Adapter's `resolve_one` is not
idempotent in the Windows dialect: `"./C:x"` resolves to `"C:x"`, but
resolving `"C:x"` again yields `"C:/x"` (the first resolution uncovers a
drive prefix that the raw input did not carry). -/
theorem claim4_cex :
    flexible.resolve_one ("./C:x".toList) FlexPathVariant.Windows =
      some ("C:x".toList) ∧
    flexible.resolve_one ("C:x".toList) FlexPathVariant.Windows =
      some ("C:/x".toList) ∧
    "C:x".toList ≠ "C:/x".toList :=
  ⟨by decide, by decide, by decide⟩

/-- C4 (amended): `resolve_one` is idempotent for the Lexical Resolver on
every input, and for the Dialect Adapter in the Common dialect; in the
Windows dialect idempotence can fail when resolution uncovers a Windows
prefix the raw input did not start with. -/
theorem claim4_idem :
    (∀ p : List Char,
      common.resolve_one (common.resolve_one p) = common.resolve_one p) ∧
    (∀ p : List Char, ∃ r,
      flexible.resolve_one p FlexPathVariant.Common = some r ∧
      flexible.resolve_one r FlexPathVariant.Common = some r) := by
  refine ⟨resolve_one_idem, ?_⟩
  intro p
  exact ⟨common.resolve_one p, fresolve_one_common p,
    by rw [fresolve_one_common, resolve_one_idem]⟩

/-- C2: For every pair of input texts and every dialect,
`relative(from_path, to_path, dialect)` panics (returns `none` in this
embedding) iff at least one argument is not absolute under the active
dialect; and `resolve_one`, `resolve`, and `resolve_n` never panic — in
particular the byte slice `r[1..]` taken after prefix reattachment (the
`none` arm of `resolveWithPre`) is never reached. -/
theorem claim2_panics :
    (∀ (v : FlexPathVariant) (p q : List Char),
      flexible.relative p q v = none ↔
        ¬(flexible.is_absolute p v = true ∧
          flexible.is_absolute q v = true)) ∧
    (∀ (v : FlexPathVariant) (p1 p2 : List Char),
      (flexible.resolve p1 p2 v).isSome = true) ∧
    (∀ (v : FlexPathVariant) (ps : List (List Char)),
      (flexible.resolve_n ps v).isSome = true) ∧
    (∀ (v : FlexPathVariant) (p : List Char),
      (flexible.resolve_one p v).isSome = true) := by
  refine ⟨fun v p q => frelative_none_iff p q v, ?_, ?_, ?_⟩
  · intro v p1 p2
    obtain ⟨t, ht⟩ := fresolve_some p1 p2 v
    rw [ht]
    rfl
  · intro v ps
    obtain ⟨t, ht⟩ := fresolve_n_some ps v
    rw [ht]
    rfl
  · intro v p
    obtain ⟨t, ht⟩ := fresolve_one_some p v
    rw [ht]
    rfl

/-- C6 counterexample: the result of the Lexical Resolver's `relative` can
contain a leading separator: `relative("/", "/ /x")` is `"/x"`, because
`trim_start` removes the leading whitespace of the first emitted segment
and exposes the following separator. -/
theorem claim6_cex :
    common.relative ("/".toList) ("/ /x".toList) = some ("/x".toList) ∧
    startsWithSep ("/x".toList) = true :=
  ⟨by decide, by decide⟩

/-- C6 (amended): for absolute inputs, `relative(from_path, to_path)`
returns `""` whenever the two paths resolve to the same path, and its
result never ends in a separator; it never begins with a separator
provided the to-path contains no whitespace (otherwise `trim_start` can
expose one); the literal examples hold. -/
theorem claim6_relative_shape :
    (∀ p q : List Char, startsWithSep p = true → startsWithSep q = true →
      ∃ r, common.relative p q = some r ∧
        (common.resolve_one p = common.resolve_one q → r = []) ∧
        (∀ c, r.getLast? = some c → isSep c = false) ∧
        ((∀ c ∈ q, isRustWhitespace c = false) → startsWithSep r = false)) ∧
    common.relative ("/a/b".toList) ("/a/b".toList) = some [] ∧
    common.relative ("/a/b".toList) ("/c/d".toList) =
      some ("../../c/d".toList) ∧
    common.relative ("/a".toList) ("/".toList) = some ("..".toList) := by
  refine ⟨?_, by decide, by decide, by decide⟩
  intro p q hp hq
  refine ⟨relOut (segsOf p) (segsOf q), relative_abs p q hp hq, ?_, ?_, ?_⟩
  · intro hsame
    have hsegs : segsOf p = segsOf q := by
      rw [← segsOf_resolve_one p, ← segsOf_resolve_one q, hsame]
    rw [hsegs]
    exact relOut_self (segsOf q)
  · exact relOut_getLast_no_sep (segsOf p) (segsOf q) (segsOf_clean q)
  · intro hws
    exact startsWithSep_relOut (segsOf p) (segsOf q) (segsOf_clean q)
      (fun s hs c hc => hws c (segsOf_chars q s hs c hc))

/-- C6 witness: the amended statement applied to `"/a/b"` and `"/c/d"`. -/
theorem claim6_witness :
    ∃ r, common.relative ("/a/b".toList) ("/c/d".toList) = some r ∧
      (common.resolve_one ("/a/b".toList) =
        common.resolve_one ("/c/d".toList) → r = []) ∧
      (∀ c, r.getLast? = some c → isSep c = false) ∧
      ((∀ c ∈ "/c/d".toList, isRustWhitespace c = false) →
        startsWithSep r = false) :=
  claim6_relative_shape.1 ("/a/b".toList) ("/c/d".toList)
    (by decide) (by decide)

/-- C7 counterexample: the round-trip
`resolve(p, relative(p, q)) == resolve_one(q)` fails both in the Common
dialect (whitespace segment: `p = "/"`, `q = "/ /x"`) and in the Windows
dialect for paths sharing a dialect prefix (`p = "//h"`, `q = "//h/D:"`,
where the relative result `"D:"` itself parses as a drive prefix). -/
theorem claim7_cex :
    (common.relative ("/".toList) ("/ /x".toList) = some ("/x".toList) ∧
      common.resolve ("/".toList) ("/x".toList) = "/x".toList ∧
      common.resolve_one ("/ /x".toList) = "/ /x".toList ∧
      "/x".toList ≠ "/ /x".toList) ∧
    (flexible.relative ("//h".toList) ("//h/D:".toList)
        FlexPathVariant.Windows = some ("D:".toList) ∧
      flexible.resolve ("//h".toList) ("D:".toList)
        FlexPathVariant.Windows = some ("D:/".toList) ∧
      flexible.resolve_one ("//h/D:".toList) FlexPathVariant.Windows =
        some ("//h/D:".toList) ∧
      "D:/".toList ≠ "//h/D:".toList) :=
  ⟨⟨by decide, by decide, by decide, by decide⟩,
    ⟨by decide, by decide, by decide, by decide⟩⟩

/-- C7 (amended): in the Common dialect, for absolute `p` and `q` where `q`
contains no whitespace, `resolve(p, relative(p, q)) == resolve_one(q)`. -/
theorem claim7_roundtrip :
    ∀ p q : List Char, startsWithSep p = true → startsWithSep q = true →
      (∀ c ∈ q, isRustWhitespace c = false) →
      ∃ r, common.relative p q = some r ∧
        common.resolve p r = common.resolve_one q := by
  intro p q hp hq hws
  exact ⟨relOut (segsOf p) (segsOf q), relative_abs p q hp hq,
    resolve_relOut_roundtrip p q hp hq hws⟩

/-- C7 witness: the amended round-trip applied to `"/a/b"` and `"/c/d"`. -/
theorem claim7_witness :
    ∃ r, common.relative ("/a/b".toList) ("/c/d".toList) = some r ∧
      common.resolve ("/a/b".toList) r =
        common.resolve_one ("/c/d".toList) :=
  claim7_roundtrip ("/a/b".toList) ("/c/d".toList)
    (by decide) (by decide) (by decide)

/-- C1 counterexample: two UNC paths with different host names do NOT take
the fallback branch: the matched absolute-prefix text of a UNC path is only
the two leading separators, so `"\\a/b"` and `"\\foo"` share the prefix
`"\\"` and the prefixes-match branch runs, giving `"../../foo"` instead of
`resolve_one("\\foo") = "\\foo"`. -/
theorem claim1_cex :
    flexible.relative ("\\\\a/b".toList) ("\\\\foo".toList)
      FlexPathVariant.Windows = some ("../../foo".toList) ∧
    flexible.resolve_one ("\\\\foo".toList) FlexPathVariant.Windows =
      some ("\\\\foo".toList) ∧
    "../../foo".toList ≠ "\\\\foo".toList :=
  ⟨by decide, by decide, by decide⟩

/-- C1 (amended): for the Windows dialect with both arguments absolute,
`relative` extracts each argument's matched absolute-prefix text; if the
matched prefixes differ (e.g. different drive letters) it returns
`resolve_one(to_path)` outright, and if they are equal it delegates to the
Lexical Resolver's `relative` on the prefix-stripped forms with a synthetic
leading separator added when missing.  The UNC prefix match is only the two
leading separators — it does not include the host name — so two UNC paths
with different hosts share a prefix and take the delegation branch.  In
particular `relative("C:/", "D:", Windows) == "D:/"`. -/
theorem claim1_relative_windows :
    (∀ fp tp pre0 pre1 : List Char,
      winPreOrSlashOf fp = some pre0 → winPreOrSlashOf tp = some pre1 →
      (pre0 ≠ pre1 →
        flexible.relative fp tp FlexPathVariant.Windows =
          flexible.resolve_one tp FlexPathVariant.Windows) ∧
      (pre0 = pre1 →
        flexible.relative fp tp FlexPathVariant.Windows =
          common.relative
            (if startsWithSep (fp.drop pre0.length) then fp.drop pre0.length
              else '/' :: fp.drop pre0.length)
            (if startsWithSep (tp.drop pre0.length) then tp.drop pre0.length
              else '/' :: tp.drop pre0.length))) ∧
    flexible.relative ("C:/".toList) ("D:".toList) FlexPathVariant.Windows =
      some ("D:/".toList) := by
  constructor
  · intro fp tp pre0 pre1 h0 h1
    rw [frelativeW_cases fp tp pre0 pre1 h0 h1]
    constructor
    · intro hne
      rw [if_pos hne]
    · intro heq
      rw [if_neg (by simp [heq])]
  · decide

/-- C1 witness: the amended statement applied to `"C:/"` and `"D:"`, whose
matched prefixes `"C:"` and `"D:"` differ. -/
theorem claim1_witness :
    flexible.relative ("C:/".toList) ("D:".toList) FlexPathVariant.Windows =
      flexible.resolve_one ("D:".toList) FlexPathVariant.Windows :=
  ((claim1_relative_windows.1 ("C:/".toList) ("D:".toList)
    ("C:".toList) ("D:".toList) (by decide) (by decide)).1 (by decide))

/-- C8: for the Windows dialect, when at least one input carries a
recognized Windows prefix, `resolve` takes `path2`'s prefix when present
and otherwise `path1`'s, replaces the matched prefix of each input by a
single separator, resolves the stripped forms with the Lexical Resolver,
and reattaches the prefix — splicing directly past the resolver's leading
separator when the prefix is a bare UNC or extended-length marker, and
concatenating unchanged otherwise; in particular
`resolve_n(["\\?\X:", ".."], Windows)` renders as `"\\?\X:\"`. -/
theorem claim8_resolve_windows :
    (∀ p1 p2 pre : List Char, winPreOf p2 = some pre →
      flexible.resolve p1 p2 FlexPathVariant.Windows =
        some (if uncOrExt pre
          then pre ++ (common.resolve (stripPreAddSlash p1)
            (stripPreAddSlash p2)).drop 1
          else pre ++ common.resolve (stripPreAddSlash p1)
            (stripPreAddSlash p2))) ∧
    (∀ p1 p2 pre : List Char, winPreOf p2 = none → winPreOf p1 = some pre →
      flexible.resolve p1 p2 FlexPathVariant.Windows =
        some (if uncOrExt pre
          then pre ++ (common.resolve (stripPreAddSlash p1)
            (stripPreAddSlash p2)).drop 1
          else pre ++ common.resolve (stripPreAddSlash p1)
            (stripPreAddSlash p2))) ∧
    (∃ t, flexible.resolve_n ["\\\\?\\X:".toList, "..".toList]
        FlexPathVariant.Windows = some t ∧
      FlexPath.windowsRender t = "\\\\?\\X:\\".toList) := by
  refine ⟨?_, ?_, ⟨"\\\\?\\X:/".toList, by decide, by decide⟩⟩
  · intro p1 p2 pre h
    rw [fresolveW_eq_withPre2 p1 p2 pre h]
    exact resolveWithPre_some p1 p2 pre (Or.inr (stripPre_sws p2 pre h))
  · intro p1 p2 pre h2 h1
    rw [fresolveW_eq_withPre1 p1 p2 pre h2 h1]
    exact resolveWithPre_some p1 p2 pre (Or.inl (stripPre_sws p1 pre h1))

/-- C8 witness: the first branch applied to `("foo", "\\Whack\a\Box")`,
whose second argument carries the UNC prefix `"\\"`. -/
theorem claim8_witness :
    flexible.resolve ("foo".toList) ("\\\\Whack\\a\\Box".toList)
      FlexPathVariant.Windows = some ("\\\\Whack/a/Box".toList) := by
  have h := claim8_resolve_windows.1 ("foo".toList)
    ("\\\\Whack\\a\\Box".toList) ("\\\\".toList) (by decide)
  rw [h]
  decide

/-- C10: for the Windows dialect, when `path1` carries a recognized Windows
prefix and `path2` starts with a bare separator but carries no Windows
prefix, `resolve(path1, path2, Windows)` retains `path1`'s prefix and
appends the resolution of `path2` to it (dropping the resolution's leading
separator when the prefix is a bare UNC/extended marker); a
bare-slash-absolute `path2` does not discard the base's prefix. -/
theorem claim10_slash_abs :
    ∀ p1 p2 pre : List Char, winPreOf p1 = some pre → winPreOf p2 = none →
      startsWithSep p2 = true →
      flexible.resolve p1 p2 FlexPathVariant.Windows =
        some (if uncOrExt pre
          then pre ++ (common.resolve_one p2).drop 1
          else pre ++ common.resolve_one p2) := by
  intro p1 p2 pre h1 h2 habs
  rw [fresolveW_eq_withPre1 p1 p2 pre h2 h1,
    resolveWithPre_some p1 p2 pre (Or.inl (stripPre_sws p1 pre h1))]
  have hstrip2 : stripPreAddSlash p2 = p2 := by
    unfold stripPreAddSlash
    rw [h2]
  rw [hstrip2]
  have hres : common.resolve (stripPreAddSlash p1) p2 =
      common.resolve_one p2 := by
    rw [resolve_eq_spec, if_pos habs]
  rw [hres]

/-- C10 witness: `resolve("C:/x", "/foo", Windows) == "C:/foo"`. -/
theorem claim10_witness :
    flexible.resolve ("C:/x".toList) ("/foo".toList)
      FlexPathVariant.Windows = some ("C:/foo".toList) := by
  have h := claim10_slash_abs ("C:/x".toList) ("/foo".toList) ("C:".toList)
    (by decide) (by decide) (by decide)
  rw [h]
  decide

/-- C9 counterexample: the stored text of a Windows `FlexPath` need not be
a fixed point of the adapter's `resolve_one`: constructing from
`"\\?\./X:y"` stores `"\\?\X:y"`, whose further resolution re-parses the
drive letter inside the extended-length prefix and yields `"\\?\X:/y"`. -/
theorem claim9_cex :
    FlexPath.new ("\\\\?\\./X:y".toList) FlexPathVariant.Windows =
      some ⟨"\\\\?\\X:y".toList, FlexPathVariant.Windows⟩ ∧
    flexible.resolve_one ("\\\\?\\X:y".toList) FlexPathVariant.Windows =
      some ("\\\\?\\X:/y".toList) ∧
    "\\\\?\\X:/y".toList ≠ "\\\\?\\X:y".toList :=
  ⟨by decide, by decide, by decide⟩

/-- C9 (amended): for every `FlexPath` of the Common variant produced by a
constructor (`new`, `from_n` and their fixed-variant wrappers) or by the
`resolve`/`resolve_n` methods, the stored text is a fixed point of the
adapter's `resolve_one` under the path's dialect; for the Windows variant
this can fail when prefix re-parsing changes the match. -/
theorem claim9_invariant_common :
    (∀ (p : List Char) (fp : FlexPath),
      FlexPath.new p FlexPathVariant.Common = some fp →
      flexible.resolve_one fp.text fp.variant = some fp.text) ∧
    (∀ (ps : List (List Char)) (fp : FlexPath),
      FlexPath.from_n ps FlexPathVariant.Common = some fp →
      flexible.resolve_one fp.text fp.variant = some fp.text) ∧
    (∀ (fp fp' : FlexPath) (p2 : List Char),
      fp.variant = FlexPathVariant.Common → fp.resolveM p2 = some fp' →
      flexible.resolve_one fp'.text fp'.variant = some fp'.text) ∧
    (∀ (fp fp' : FlexPath) (ps : List (List Char)),
      fp.variant = FlexPathVariant.Common → fp.resolve_nM ps = some fp' →
      flexible.resolve_one fp'.text fp'.variant = some fp'.text) := by
  refine ⟨?_, ?_, ?_, ?_⟩
  · intro p fp h
    have h' : fp = ⟨common.resolve_one p, FlexPathVariant.Common⟩ := by
      unfold FlexPath.new at h
      rw [fresolve_one_common] at h
      simpa using h.symm
    subst h'
    show flexible.resolve_one (common.resolve_one p)
      FlexPathVariant.Common = some (common.resolve_one p)
    rw [fresolve_one_common, resolve_one_idem]
  · intro ps fp h
    have h' : fp = ⟨common.resolve_n ps, FlexPathVariant.Common⟩ := by
      unfold FlexPath.from_n at h
      rw [fresolve_n_common] at h
      simpa using h.symm
    subst h'
    show flexible.resolve_one (common.resolve_n ps)
      FlexPathVariant.Common = some (common.resolve_n ps)
    rw [fresolve_one_common, resolve_n_fix]
  · intro fp fp' p2 hv h
    have h' : fp' = ⟨common.resolve fp.text p2, FlexPathVariant.Common⟩ := by
      unfold FlexPath.resolveM at h
      rw [hv, fresolve_common] at h
      simpa using h.symm
    subst h'
    show flexible.resolve_one (common.resolve fp.text p2)
      FlexPathVariant.Common = some (common.resolve fp.text p2)
    rw [fresolve_one_common, resolve_output_fix]
  · intro fp fp' ps hv h
    have h' : fp' = ⟨common.resolve fp.text (common.resolve_n ps),
        FlexPathVariant.Common⟩ := by
      unfold FlexPath.resolve_nM at h
      rw [hv, fresolve_n_common, Option.some_bind, fresolve_common] at h
      simpa using h.symm
    subst h'
    show flexible.resolve_one
      (common.resolve fp.text (common.resolve_n ps))
      FlexPathVariant.Common =
      some (common.resolve fp.text (common.resolve_n ps))
    rw [fresolve_one_common, resolve_output_fix]

/-- C9 witness: the invariant applied to the construction of
`FlexPath::new_common("a/./b")`, whose stored text is `"a/b"`. -/
theorem claim9_witness :
    flexible.resolve_one ("a/b".toList) FlexPathVariant.Common =
      some ("a/b".toList) :=
  claim9_invariant_common.1 ("a/./b".toList)
    ⟨"a/b".toList, FlexPathVariant.Common⟩ (by decide)
